import Mathlib

/-!
Shallow embedding of the yagre-mcmc core (Metropolised Random Walk,
covariance operators, Welford moment diagnostics, Metropolis–Hastings
trajectory bookkeeping, and the MRW builder/proposal), together with
theorems settling the specification claims about it.

Machine floating-point values that can be non-finite (log-posteriors) are
modelled by the type `FVal` with IEEE-754 rules for subtraction, `exp`
and comparison; finite float arithmetic is idealised as real arithmetic.
-/

noncomputable section

open Matrix

/-- IEEE-754-style value of a double as used for log-densities: a finite
real, one of the two infinities, or NaN. -/
inductive FVal where
  | fin (r : ℝ)
  | negInf
  | posInf
  | nan
deriving DecidableEq

namespace FVal

/-- IEEE-754 subtraction: `(-∞) - (-∞) = NaN`, `NaN` propagates. -/
def sub : FVal → FVal → FVal
  | nan, _ => nan
  | _, nan => nan
  | fin a, fin b => fin (a - b)
  | fin _, negInf => posInf
  | fin _, posInf => negInf
  | negInf, fin _ => negInf
  | negInf, negInf => nan
  | negInf, posInf => negInf
  | posInf, fin _ => posInf
  | posInf, negInf => posInf
  | posInf, posInf => nan

/-- IEEE-754 exponential: `exp(-∞) = 0`, `exp(+∞) = +∞`, `exp(NaN) = NaN`. -/
def fexp : FVal → FVal
  | fin r => fin (Real.exp r)
  | negInf => fin 0
  | posInf => posInf
  | nan => nan

/-- IEEE-754 less-than as a Bool: any comparison involving NaN is false. -/
def flt : FVal → FVal → Bool
  | nan, _ => false
  | _, nan => false
  | fin a, fin b => decide (a < b)
  | fin _, negInf => false
  | fin _, posInf => true
  | negInf, negInf => false
  | negInf, _ => true
  | posInf, _ => false

end FVal

/-- A target density exposes `evaluate_log`, returning a (possibly
non-finite) log-density value. -/
structure TargetDensity (P : Type) where
  evaluate_log : P → FVal

namespace MetropolisedRandomWalk

/-- Embedding of `MetropolisedRandomWalk._acceptance_probability`:
`densityRatio = exp(log p(proposal) - log p(state))`, returned if
`densityRatio < 1.0` and otherwise replaced by `1.0` (numpy float
semantics). -/
def acceptance_probability {P : Type} (tgtDensity : TargetDensity P)
    (proposal state : P) : FVal :=
  let densityRatio :=
    FVal.fexp ((tgtDensity.evaluate_log proposal).sub
      (tgtDensity.evaluate_log state))
  if FVal.flt densityRatio (FVal.fin 1) then densityRatio else FVal.fin 1

end MetropolisedRandomWalk

/-- A target density that is `-∞` everywhere (e.g. after solver failure at
both the current state and the proposal). -/
def degenerateTarget : TargetDensity Unit := ⟨fun _ => FVal.negInf⟩

/-- The constant-zero log target, used as a concrete witness input. -/
def zeroTarget : TargetDensity Unit := ⟨fun _ => FVal.fin 0⟩

/-- Method `induced_norm_squared` of the abstract base class:
`np.dot(x, apply_inverse(x))`, parametrised by the per-implementation
`apply_inverse`. -/
def inducedNormSquared {d : ℕ} (applyInv : (Fin d → ℝ) → Fin d → ℝ)
    (x : Fin d → ℝ) : ℝ :=
  x ⬝ᵥ applyInv x

/-- Embedding of `DiagonalCovarianceMatrix`: stores the reciprocals of the
marginal variances. -/
structure DiagonalCovarianceMatrix (d : ℕ) where
  precision : Fin d → ℝ

namespace DiagonalCovarianceMatrix

/-- The constructor `DiagonalCovarianceMatrix(marginalVariances)`:
`_precision = np.reciprocal(marginalVariances)`. -/
def ofMarginalVariances {d : ℕ} (marginalVariances : Fin d → ℝ) :
    DiagonalCovarianceMatrix d :=
  ⟨fun i => (marginalVariances i)⁻¹⟩

def dimension {d : ℕ} (_ : DiagonalCovarianceMatrix d) : ℕ := d

/-- Method `apply_chol_factor(x) = sqrt(reciprocal(precision)) * x` (elementwise). -/
def apply_chol_factor {d : ℕ} (c : DiagonalCovarianceMatrix d)
    (x : Fin d → ℝ) : Fin d → ℝ :=
  fun i => Real.sqrt (c.precision i)⁻¹ * x i

/-- Method `apply_inverse(x) = precision * x` (elementwise). -/
def apply_inverse {d : ℕ} (c : DiagonalCovarianceMatrix d)
    (x : Fin d → ℝ) : Fin d → ℝ :=
  fun i => c.precision i * x i

def induced_norm_squared {d : ℕ} (c : DiagonalCovarianceMatrix d)
    (x : Fin d → ℝ) : ℝ :=
  inducedNormSquared c.apply_inverse x

end DiagonalCovarianceMatrix

/-- Embedding of `IIDCovarianceMatrix(dimension, variance)`: a diagonal
covariance built from the constant vector `np.full(dimension, variance)`. -/
def IIDCovarianceMatrix (d : ℕ) (variance : ℝ) : DiagonalCovarianceMatrix d :=
  DiagonalCovarianceMatrix.ofMarginalVariances (fun _ => variance)

/-- Forward substitution, the embedding of
`solve_triangular(L, b, lower=True)`: solves `L y = b` for lower
triangular `L`. -/
def forwardSolve {n : ℕ} (L : Matrix (Fin n) (Fin n) ℝ) (b : Fin n → ℝ)
    (i : Fin n) : ℝ :=
  (b i - ∑ j ∈ (Finset.univ.filter (fun j => j < i)).attach,
      L i j.1 * forwardSolve L b j.1) / L i i
termination_by i.val
decreasing_by
  exact (Finset.mem_filter.mp j.2).2

/-- Back substitution, the embedding of
`solve_triangular(U, b, lower=False)`: solves `U y = b` for upper
triangular `U`. -/
def backwardSolve {n : ℕ} (U : Matrix (Fin n) (Fin n) ℝ) (b : Fin n → ℝ)
    (i : Fin n) : ℝ :=
  (b i - ∑ j ∈ (Finset.univ.filter (fun j => i < j)).attach,
      U i j.1 * backwardSolve U b j.1) / U i i
termination_by n - i.val
decreasing_by
  have hj : i < j.1 := (Finset.mem_filter.mp j.2).2
  omega

/-- The Schur complement of the (0,0) pivot: the matrix passed to the
recursive Cholesky step. -/
def schurMinor {n : ℕ} (A : Matrix (Fin (n + 1)) (Fin (n + 1)) ℝ) :
    Matrix (Fin n) (Fin n) ℝ :=
  fun i j =>
    A i.succ j.succ -
      (A i.succ 0 / Real.sqrt (A 0 0)) * (A j.succ 0 / Real.sqrt (A 0 0))

/-- Assembles the Cholesky factor of an (n+1)-dimensional matrix from the
pivot `l`, the scaled first column `c` and the factor `M` of the Schur
complement. -/
def extendChol {n : ℕ} (l : ℝ) (c : Fin n → ℝ)
    (M : Matrix (Fin n) (Fin n) ℝ) :
    Matrix (Fin (n + 1)) (Fin (n + 1)) ℝ :=
  fun i j =>
    Fin.cases (Fin.cases l (fun _ => 0) j)
      (fun i2 => Fin.cases (c i2) (fun j2 => M i2 j2) j) i

/-- The lower Cholesky factorisation algorithm (the embedding of
`scipy.linalg.cholesky(·, lower=True)` on the relevant inputs): returns
`none` when a pivot is not strictly positive, i.e. when the factorisation
cannot be computed. -/
def cholesky : {n : ℕ} → Matrix (Fin n) (Fin n) ℝ →
    Option (Matrix (Fin n) (Fin n) ℝ)
  | 0, _ => some 0
  | (_ + 1), A =>
    if 0 < A 0 0 then
      match cholesky (schurMinor A) with
      | none => none
      | some M =>
        some (extendChol (Real.sqrt (A 0 0))
          (fun i => A i.succ 0 / Real.sqrt (A 0 0)) M)
    else none

/-- Error kinds surfaced by covariance construction. -/
inductive CovarianceError where
  | illConditioned
deriving DecidableEq

/-- Embedding of `DenseCovarianceMatrix`: stores the precomputed lower
Cholesky factor `cholFactor_`. -/
structure DenseCovarianceMatrix (n : ℕ) where
  cholFactor : Matrix (Fin n) (Fin n) ℝ

namespace DenseCovarianceMatrix

/-- The constructor `DenseCovarianceMatrix(denseCovMat)`: computes the
lower Cholesky factor once, failing (ill-conditioned) when the
factorisation cannot be computed. -/
def make {n : ℕ} (denseCovMat : Matrix (Fin n) (Fin n) ℝ) :
    Except CovarianceError (DenseCovarianceMatrix n) :=
  match cholesky denseCovMat with
  | none => Except.error CovarianceError.illConditioned
  | some L => Except.ok ⟨L⟩

def dimension {n : ℕ} (_ : DenseCovarianceMatrix n) : ℕ := n

/-- Method `apply_chol_factor(x) = cholFactor_ @ x`. -/
def apply_chol_factor {n : ℕ} (c : DenseCovarianceMatrix n)
    (x : Fin n → ℝ) : Fin n → ℝ :=
  c.cholFactor.mulVec x

/-- Method `apply_inverse(x)`: two triangular solves,
`y = solve_triangular(L, x, lower=True)` then
`solve_triangular(Lᵀ, y, lower=False)`. -/
def apply_inverse {n : ℕ} (c : DenseCovarianceMatrix n)
    (x : Fin n → ℝ) : Fin n → ℝ :=
  backwardSolve c.cholFactorᵀ (forwardSolve c.cholFactor x)

def induced_norm_squared {n : ℕ} (c : DenseCovarianceMatrix n)
    (x : Fin n → ℝ) : ℝ :=
  inducedNormSquared c.apply_inverse x

/-- Method `dense() = cholFactor_ @ cholFactor_ᵀ`. -/
def dense {n : ℕ} (c : DenseCovarianceMatrix n) :
    Matrix (Fin n) (Fin n) ℝ :=
  c.cholFactor * c.cholFactorᵀ

end DenseCovarianceMatrix

/-- A matrix is positive definite (as a quadratic form over ℝ). -/
def PosDefM {n : ℕ} (A : Matrix (Fin n) (Fin n) ℝ) : Prop :=
  ∀ x : Fin n → ℝ, x ≠ 0 → 0 < x ⬝ᵥ A.mulVec x

/-- A matrix is lower triangular. -/
def LowerTri {n : ℕ} (L : Matrix (Fin n) (Fin n) ℝ) : Prop :=
  ∀ i j : Fin n, i < j → L i j = 0

/-- A matrix is upper triangular. -/
def UpperTri {n : ℕ} (U : Matrix (Fin n) (Fin n) ℝ) : Prop :=
  ∀ i j : Fin n, j < i → U i j = 0

/-- The 1-by-1 matrix with entry -1: a symmetric matrix that is not
positive definite (a concrete witness input). -/
def negOneMat : Matrix (Fin 1) (Fin 1) ℝ := fun _ _ => -1

/-- Modelled from the spec: the per-coordinate state of the Welford
accumulator (chain/diagnostics.py is not among the provided sources),
"maintaining (n, mean, M₂)". -/
structure WelfordScalar where
  n : ℕ
  mean : ℝ
  M2 : ℝ

/-- Modelled from the spec: the accumulator starts empty. -/
def welfordScalarInit : WelfordScalar := ⟨0, 0, 0⟩

/-- Modelled from the spec: the standard Welford update of (n, mean, M₂)
by one sample. -/
def welfordScalarUpdate (w : WelfordScalar) (x : ℝ) : WelfordScalar :=
  let n1 := w.n + 1
  let delta := x - w.mean
  let mean1 := w.mean + delta / (n1 : ℝ)
  ⟨n1, mean1, w.M2 + delta * (x - mean1)⟩

/-- Modelled from the spec: the vector-valued `WelfordAccumulator`
"holding n, running mean, and M₂ for elementwise mean and unbiased
variance". -/
structure WelfordAccumulator (d : ℕ) where
  n : ℕ
  mean : Fin d → ℝ
  M2 : Fin d → ℝ

namespace WelfordAccumulator

def init (d : ℕ) : WelfordAccumulator d := ⟨0, fun _ => 0, fun _ => 0⟩

/-- The per-coordinate view of the accumulator. -/
def component {d : ℕ} (w : WelfordAccumulator d) (i : Fin d) :
    WelfordScalar :=
  ⟨w.n, w.mean i, w.M2 i⟩

/-- Modelled from the spec: `process` ingests one state vector,
updating every coordinate by the Welford update. -/
def process {d : ℕ} (w : WelfordAccumulator d) (x : Fin d → ℝ) :
    WelfordAccumulator d :=
  ⟨w.n + 1,
    fun i => (welfordScalarUpdate (w.component i) (x i)).mean,
    fun i => (welfordScalarUpdate (w.component i) (x i)).M2⟩

/-- Ingesting a finite sequence of state vectors in order. -/
def processList {d : ℕ} (w : WelfordAccumulator d)
    (s : List (Fin d → ℝ)) : WelfordAccumulator d :=
  s.foldl process w

/-- Modelled from the spec: `marginal_variance` returns M₂ / (n - 1)
elementwise. -/
def marginal_variance {d : ℕ} (w : WelfordAccumulator d) : Fin d → ℝ :=
  fun i => w.M2 i / ((w.n : ℝ) - 1)

end WelfordAccumulator

/-- The elementwise arithmetic mean of a list of reals (following the
wording of the spec). -/
def listMean (t : List ℝ) : ℝ := t.sum / (t.length : ℝ)

/-- The unbiased sample variance of a list of reals (following the
wording of the spec). -/
def listSampleVariance (t : List ℝ) : ℝ :=
  ((t.map (fun y => (y - listMean t) ^ 2)).sum) / ((t.length : ℝ) - 1)

/-- Transition outcomes (ACCEPTED / REJECTED). -/
inductive TransitionOutcome where
  | accepted
  | rejected
deriving DecidableEq

/-- A transition event: pair of new state and outcome. -/
structure TransitionData (P : Type) where
  state : P
  outcome : TransitionOutcome

/-- Modelled from the spec §4.8: the Metropolis–Hastings accept test,
"draw u ~ U(0,1); accept if log u < min(0, log α)". -/
def mhAccept (logAlpha u : ℝ) : Prop := Real.log u < min 0 logAlpha

instance (logAlpha u : ℝ) : Decidable (mhAccept logAlpha u) :=
  inferInstanceAs (Decidable (Real.log u < min 0 logAlpha))

/-- Modelled from the spec §4.8 (metropolisHastings.py is not among the
provided sources): the loop of `run` for k = 1..n — generate a proposal
from the current state, compute log α = log_posterior(proposal) -
log_posterior(state) + log_density_ratio(state, proposal), accept or
reject, emit the transition, and continue from the new state. The
proposal draws and the uniform draws are supplied as streams indexed by
the step counter. -/
def mhSteps {P : Type} (logPost : P → ℝ) (logRatio : P → P → ℝ)
    (propose : ℕ → P → P) (u : ℕ → ℝ) :
    ℕ → ℕ → P → List (TransitionData P)
  | 0, _, _ => []
  | nSteps + 1, k, state =>
    let proposal := propose k state
    let logAlpha :=
      logPost proposal - logPost state + logRatio state proposal
    if mhAccept logAlpha (u k) then
      ⟨proposal, TransitionOutcome.accepted⟩ ::
        mhSteps logPost logRatio propose u nSteps (k + 1) proposal
    else
      ⟨state, TransitionOutcome.rejected⟩ ::
        mhSteps logPost logRatio propose u nSteps (k + 1) state

/-- Modelled from the spec §4.8: `run(n, x_0)` sets the state to x_0,
emits a synthetic ACCEPTED transition for x_0, and then performs n
accept/reject steps. -/
def mhRun {P : Type} (logPost : P → ℝ) (logRatio : P → P → ℝ)
    (propose : ℕ → P → P) (u : ℕ → ℝ) (nSteps : ℕ) (x0 : P) :
    List (TransitionData P) :=
  ⟨x0, TransitionOutcome.accepted⟩ ::
    mhSteps logPost logRatio propose u nSteps 1 x0

/-- Builder error kinds (`InvalidBuilder`). -/
inductive BuilderError where
  | invalidBuilder (msg : String)
deriving DecidableEq

/-- Modelled from the spec §6 (the ChainBuilder base class is not among
the provided sources): the MRW builder holds an optional Bayes model, an
optional explicit target, and an optional proposal covariance (the
`MRWBuilder.__init__` sets `_proposalCov = None`). -/
structure MRWBuilder (ModelT TargetT CovT : Type) where
  bayesModel : Option ModelT
  explicitTarget : Option TargetT
  proposalCovariance : Option CovT

/-- Marker for `UnnormalisedPosterior(bayesModel)`: the target density built from a
Bayes model. -/
structure UnnormalisedPosterior (ModelT : Type) where
  model : Option ModelT

/-- The constructed MRW method: a target density and the proposal
covariance. -/
structure MRWMethod (T CovT : Type) where
  targetDensity : T
  proposalCov : CovT

namespace MRWBuilder

/-- Method `MRWBuilder._validate_parameters`: fails with InvalidBuilder
("Proposal Covariance not set for MRW") when the proposal covariance has
not been set. -/
def validate_parameters {M T C : Type} (b : MRWBuilder M T C) :
    Except BuilderError Unit :=
  match b.proposalCovariance with
  | none => Except.error
      (BuilderError.invalidBuilder "Proposal Covariance not set for MRW")
  | some _ => Except.ok ()

/-- Method `MRWBuilder.build_from_model`: validates, then builds an MRW method
whose target is the unnormalised posterior of the Bayes model. -/
def build_from_model {M T C : Type} (b : MRWBuilder M T C) :
    Except BuilderError (MRWMethod (UnnormalisedPosterior M) C) :=
  match b.validate_parameters with
  | Except.error e => Except.error e
  | Except.ok _ =>
    match b.proposalCovariance with
    | none => Except.error
        (BuilderError.invalidBuilder "Proposal Covariance not set for MRW")
    | some cov => Except.ok ⟨⟨b.bayesModel⟩, cov⟩

/-- Method `MRWBuilder.build_from_target`: validates, then builds an MRW method
for the explicit target. -/
def build_from_target {M T C : Type} (b : MRWBuilder M T C) :
    Except BuilderError (MRWMethod (Option T) C) :=
  match b.validate_parameters with
  | Except.error e => Except.error e
  | Except.ok _ =>
    match b.proposalCovariance with
    | none => Except.error
        (BuilderError.invalidBuilder "Proposal Covariance not set for MRW")
    | some cov => Except.ok ⟨b.explicitTarget, cov⟩

end MRWBuilder

/-- Modelled from the spec §4.2 (statistics/parameterLaw.py is not among
the provided sources): a Gaussian parameter law stores a mean and a
covariance; sampling returns mean + chol_factor(cov)·z for a standard
normal draw z. The covariance type is abstract and its Cholesky action
is supplied as a function. -/
structure GaussianLaw (d : ℕ) (C : Type) where
  mean : Fin d → ℝ
  cov : C

namespace GaussianLaw

def generate_realisation {d : ℕ} {C : Type}
    (applyChol : C → (Fin d → ℝ) → Fin d → ℝ) (law : GaussianLaw d C)
    (z : Fin d → ℝ) : Fin d → ℝ :=
  fun i => law.mean i + applyChol law.cov z i

end GaussianLaw

/-- The error raised by `generate_proposal` on an undefined state
("Trying to generate proposal with undefined state"). -/
inductive ProposalError where
  | undefinedState
deriving DecidableEq

/-- Embedding of `MRWProposal`: holds the proposal covariance `cov_`, the
current state `_state` (None until `set_state` is called, as initialised
by the ProposalMethod base class, which is modelled from the spec), and
the proposal law `proposalLaw_` (None initially). -/
structure MRWProposal (d : ℕ) (C : Type) where
  cov : C
  state : Option (Fin d → ℝ)
  proposalLaw : Option (GaussianLaw d C)

namespace MRWProposal

/-- Constructor `MRWProposal.__init__(proposalCov)`. -/
def init {d : ℕ} {C : Type} (proposalCov : C) : MRWProposal d C :=
  ⟨proposalCov, none, none⟩

/-- Method `MRWProposal.set_state(newState)`: stores the state and rebuilds the
proposal law as the Gaussian centred at the new state with covariance
`cov_`. -/
def set_state {d : ℕ} {C : Type} (p : MRWProposal d C)
    (newState : Fin d → ℝ) : MRWProposal d C :=
  { p with state := some newState,
           proposalLaw := some ⟨newState, p.cov⟩ }

/-- Method `MRWProposal.generate_proposal()`: raises when the state is
undefined, otherwise draws a realisation of the stored proposal law. -/
def generate_proposal {d : ℕ} {C : Type}
    (applyChol : C → (Fin d → ℝ) → Fin d → ℝ) (p : MRWProposal d C)
    (z : Fin d → ℝ) : Except ProposalError (Fin d → ℝ) :=
  match p.state with
  | none => Except.error ProposalError.undefinedState
  | some _ =>
    match p.proposalLaw with
    | none => Except.error ProposalError.undefinedState
    | some law => Except.ok (law.generate_realisation applyChol z)

end MRWProposal

end

/-- C1: for finite log-posteriors the MRW acceptance probability equals
min(1, exp(log p(proposal) - log p(state))) and lies in [0, 1]. -/
theorem mrw_acceptance_probability_finite {P : Type}
    (tgtDensity : TargetDensity P) (state proposal : P) (ls lp : ℝ)
    (hs : tgtDensity.evaluate_log state = FVal.fin ls)
    (hp : tgtDensity.evaluate_log proposal = FVal.fin lp) :
    MetropolisedRandomWalk.acceptance_probability tgtDensity proposal state
      = FVal.fin (min 1 (Real.exp (lp - ls)))
    ∧ 0 ≤ min 1 (Real.exp (lp - ls)) ∧ min 1 (Real.exp (lp - ls)) ≤ 1 := by
  unfold MetropolisedRandomWalk.acceptance_probability
  rw [hs, hp]
  simp only [FVal.sub, FVal.fexp, FVal.flt]
  refine ⟨?_, ?_, min_le_left _ _⟩
  · by_cases h : Real.exp (lp - ls) < 1
    · simp [h, min_eq_right h.le]
    · simp [h, min_eq_left (not_lt.mp h)]
  · exact le_min zero_le_one (Real.exp_pos _).le

/-- Witness for C1 at the constant-zero log target: the acceptance
probability at equal states evaluates to 1. -/
theorem mrw_acceptance_probability_finite_witness :
    zeroTarget.evaluate_log () = FVal.fin 0
    ∧ (MetropolisedRandomWalk.acceptance_probability zeroTarget () ()
        = FVal.fin (min 1 (Real.exp ((0 : ℝ) - 0)))
      ∧ 0 ≤ min 1 (Real.exp ((0 : ℝ) - 0))
      ∧ min 1 (Real.exp ((0 : ℝ) - 0)) ≤ 1) :=
  ⟨rfl, mrw_acceptance_probability_finite zeroTarget () () 0 0 rfl rfl⟩

/-- C2 (code bug): when the log-posteriors of both the current state and
the proposal are `-∞`, the code computes `exp((-∞) - (-∞)) = exp(NaN) =
NaN`, the comparison `NaN < 1.0` is false, and the returned acceptance
probability is 1 — not the 0 that the failure-handling policy of the spec
requires. -/
theorem mrw_acceptance_probability_both_neg_inf :
    MetropolisedRandomWalk.acceptance_probability degenerateTarget () ()
      = FVal.fin 1
    ∧ MetropolisedRandomWalk.acceptance_probability degenerateTarget () ()
      ≠ FVal.fin 0 := by
  constructor
  · unfold MetropolisedRandomWalk.acceptance_probability
    simp [degenerateTarget, FVal.sub, FVal.fexp, FVal.flt]
  · unfold MetropolisedRandomWalk.acceptance_probability
    simp [degenerateTarget, FVal.sub, FVal.fexp, FVal.flt]

section TriangularLemmas

open Matrix

variable {n : ℕ}

/-- Splitting a sum over `Fin n` at an index `i`. -/
theorem sum_split_at (i : Fin n) (f : Fin n → ℝ) :
    ∑ j, f j = (∑ j ∈ Finset.univ.filter (fun j => j < i), f j) + f i
      + ∑ j ∈ Finset.univ.filter (fun j => i < j), f j := by
  have h1 := Finset.sum_filter_add_sum_filter_not Finset.univ
    (fun j => j < i) f
  have h2 : Finset.univ.filter (fun j : Fin n => ¬ j < i) =
      insert i (Finset.univ.filter (fun j => i < j)) := by
    ext j
    simp only [Finset.mem_filter, Finset.mem_univ, true_and,
      Finset.mem_insert, not_lt]
    constructor
    · intro h
      rcases eq_or_lt_of_le h with h | h
      · exact Or.inl h.symm
      · exact Or.inr h
    · rintro (rfl | h)
      · exact le_refl _
      · exact h.le
  rw [← h1, h2, Finset.sum_insert (by simp)]
  ring

theorem mulVec_forwardSolve {L : Matrix (Fin n) (Fin n) ℝ}
    (hL : LowerTri L) (hd : ∀ i, L i i ≠ 0) (b : Fin n → ℝ) :
    L.mulVec (forwardSolve L b) = b := by
  funext i
  have hexp : L.mulVec (forwardSolve L b) i
      = ∑ j, L i j * forwardSolve L b j := by
    simp [Matrix.mulVec, dotProduct]
  rw [hexp, sum_split_at i]
  have hz : ∑ j ∈ Finset.univ.filter (fun j => i < j),
      L i j * forwardSolve L b j = 0 :=
    Finset.sum_eq_zero fun j hj => by
      rw [hL i j (Finset.mem_filter.mp hj).2, zero_mul]
  rw [hz, add_zero, forwardSolve, Finset.sum_attach
    (Finset.univ.filter (fun j => j < i)) (fun j => L i j * forwardSolve L b j),
    mul_comm, div_mul_cancel₀ _ (hd i)]
  ring

theorem mulVec_backwardSolve {U : Matrix (Fin n) (Fin n) ℝ}
    (hU : UpperTri U) (hd : ∀ i, U i i ≠ 0) (b : Fin n → ℝ) :
    U.mulVec (backwardSolve U b) = b := by
  funext i
  have hexp : U.mulVec (backwardSolve U b) i
      = ∑ j, U i j * backwardSolve U b j := by
    simp [Matrix.mulVec, dotProduct]
  rw [hexp, sum_split_at i]
  have hz : ∑ j ∈ Finset.univ.filter (fun j => j < i),
      U i j * backwardSolve U b j = 0 :=
    Finset.sum_eq_zero fun j hj => by
      rw [hU i j (Finset.mem_filter.mp hj).2, zero_mul]
  rw [hz, zero_add, backwardSolve, Finset.sum_attach
    (Finset.univ.filter (fun j => i < j)) (fun j => U i j * backwardSolve U b j),
    mul_comm, div_mul_cancel₀ _ (hd i)]
  ring

theorem lowerTri_mulVec_zero {L : Matrix (Fin n) (Fin n) ℝ}
    (hL : LowerTri L) (hd : ∀ i, L i i ≠ 0) {v : Fin n → ℝ}
    (hv : L.mulVec v = 0) : v = 0 := by
  have key : ∀ m : ℕ, ∀ i : Fin n, i.val = m → v i = 0 := by
    intro m
    induction m using Nat.strong_induction_on with
    | _ m ih =>
      intro i him
      have h0 : ∑ j, L i j * v j = 0 := by
        have h := congrFun hv i
        simpa [Matrix.mulVec, dotProduct] using h
      rw [sum_split_at i] at h0
      have hlow : ∑ j ∈ Finset.univ.filter (fun j => j < i),
          L i j * v j = 0 :=
        Finset.sum_eq_zero fun j hj => by
          have hji : j < i := (Finset.mem_filter.mp hj).2
          rw [ih j.val (by omega) j rfl, mul_zero]
      have hup : ∑ j ∈ Finset.univ.filter (fun j => i < j),
          L i j * v j = 0 :=
        Finset.sum_eq_zero fun j hj => by
          rw [hL i j (Finset.mem_filter.mp hj).2, zero_mul]
      rw [hlow, hup, zero_add, add_zero] at h0
      exact (mul_eq_zero.mp h0).resolve_left (hd i)
  funext i
  exact key i.val i rfl

theorem upperTri_mulVec_zero {U : Matrix (Fin n) (Fin n) ℝ}
    (hU : UpperTri U) (hd : ∀ i, U i i ≠ 0) {v : Fin n → ℝ}
    (hv : U.mulVec v = 0) : v = 0 := by
  have key : ∀ m : ℕ, ∀ i : Fin n, n - 1 - i.val = m → v i = 0 := by
    intro m
    induction m using Nat.strong_induction_on with
    | _ m ih =>
      intro i him
      have h0 : ∑ j, U i j * v j = 0 := by
        have h := congrFun hv i
        simpa [Matrix.mulVec, dotProduct] using h
      rw [sum_split_at i] at h0
      have hup : ∑ j ∈ Finset.univ.filter (fun j => i < j),
          U i j * v j = 0 :=
        Finset.sum_eq_zero fun j hj => by
          have hji : i < j := (Finset.mem_filter.mp hj).2
          have hjn : j.val < n := j.isLt
          rw [ih (n - 1 - j.val) (by omega) j rfl, mul_zero]
      have hlow : ∑ j ∈ Finset.univ.filter (fun j => j < i),
          U i j * v j = 0 :=
        Finset.sum_eq_zero fun j hj => by
          rw [hU i j (Finset.mem_filter.mp hj).2, zero_mul]
      rw [hlow, hup, zero_add, add_zero] at h0
      exact (mul_eq_zero.mp h0).resolve_left (hd i)
  funext i
  exact key (n - 1 - i.val) i rfl

theorem lowerTri_mulVec_inj {L : Matrix (Fin n) (Fin n) ℝ}
    (hL : LowerTri L) (hd : ∀ i, L i i ≠ 0) {v w : Fin n → ℝ}
    (h : L.mulVec v = L.mulVec w) : v = w := by
  have hz : L.mulVec (v - w) = 0 := by
    rw [Matrix.mulVec_sub, h, sub_self]
  have := lowerTri_mulVec_zero hL hd hz
  exact sub_eq_zero.mp this

theorem upperTri_mulVec_inj {U : Matrix (Fin n) (Fin n) ℝ}
    (hU : UpperTri U) (hd : ∀ i, U i i ≠ 0) {v w : Fin n → ℝ}
    (h : U.mulVec v = U.mulVec w) : v = w := by
  have hz : U.mulVec (v - w) = 0 := by
    rw [Matrix.mulVec_sub, h, sub_self]
  have := upperTri_mulVec_zero hU hd hz
  exact sub_eq_zero.mp this

end TriangularLemmas

section CholeskyLemmas

open Matrix

variable {n : ℕ}

theorem extendChol_zero_zero (l : ℝ) (c : Fin n → ℝ)
    (M : Matrix (Fin n) (Fin n) ℝ) : extendChol l c M 0 0 = l := rfl

theorem extendChol_zero_succ (l : ℝ) (c : Fin n → ℝ)
    (M : Matrix (Fin n) (Fin n) ℝ) (j : Fin n) :
    extendChol l c M 0 j.succ = 0 := by
  simp [extendChol]

theorem extendChol_succ_zero (l : ℝ) (c : Fin n → ℝ)
    (M : Matrix (Fin n) (Fin n) ℝ) (i : Fin n) :
    extendChol l c M i.succ 0 = c i := by
  simp [extendChol]

theorem extendChol_succ_succ (l : ℝ) (c : Fin n → ℝ)
    (M : Matrix (Fin n) (Fin n) ℝ) (i j : Fin n) :
    extendChol l c M i.succ j.succ = M i j := by
  simp [extendChol]

/-- Soundness of the Cholesky algorithm: a returned factor is lower
triangular with strictly positive diagonal, and for a symmetric input it
reproduces the input as `L * Lᵀ`. -/
theorem cholesky_spec : ∀ {n : ℕ} (A L : Matrix (Fin n) (Fin n) ℝ),
    cholesky A = some L →
    LowerTri L ∧ (∀ i, 0 < L i i) ∧ (Aᵀ = A → L * Lᵀ = A) := by
  intro n
  induction n with
  | zero =>
    intro A L h
    simp only [cholesky, Option.some.injEq] at h
    subst h
    refine ⟨fun i => i.elim0, fun i => i.elim0, fun _ => ?_⟩
    ext i j
    exact i.elim0
  | succ n ih =>
    intro A L h
    rw [cholesky] at h
    by_cases ha : 0 < A 0 0
    · rw [if_pos ha] at h
      rcases hm : cholesky (schurMinor A) with _ | M
      · rw [hm] at h
        exact absurd h (by simp)
      · rw [hm] at h
        simp only [Option.some.injEq] at h
        subst h
        obtain ⟨hMlow, hMdiag, hMmul⟩ := ih (schurMinor A) M hm
        have hsq : Real.sqrt (A 0 0) ≠ 0 :=
          ne_of_gt (Real.sqrt_pos.mpr ha)
        refine ⟨?_, ?_, ?_⟩
        · intro i j hij
          induction i using Fin.cases with
          | zero =>
            induction j using Fin.cases with
            | zero => exact absurd hij (lt_irrefl _)
            | succ j2 => exact extendChol_zero_succ _ _ _ j2
          | succ i2 =>
            induction j using Fin.cases with
            | zero => exact absurd hij (by simp [Fin.lt_def])
            | succ j2 =>
              rw [extendChol_succ_succ]
              exact hMlow i2 j2 (by
                have := hij
                simp only [Fin.lt_def, Fin.val_succ] at this ⊢
                omega)
        · intro i
          induction i using Fin.cases with
          | zero =>
            rw [extendChol_zero_zero]
            exact Real.sqrt_pos.mpr ha
          | succ i2 =>
            rw [extendChol_succ_succ]
            exact hMdiag i2
        · intro hA
          have hsym : ∀ i j, A j i = A i j := fun i j => by
            have := congrFun (congrFun hA i) j
            rwa [Matrix.transpose_apply] at this
          have hminor_sym : (schurMinor A)ᵀ = schurMinor A := by
            ext i j
            rw [Matrix.transpose_apply]
            simp only [schurMinor]
            rw [hsym j.succ i.succ]
            ring
          have hMM : M * Mᵀ = schurMinor A := hMmul hminor_sym
          ext i j
          rw [Matrix.mul_apply]
          induction i using Fin.cases with
          | zero =>
            induction j using Fin.cases with
            | zero =>
              rw [Fin.sum_univ_succ]
              simp only [Matrix.transpose_apply, extendChol_zero_zero,
                extendChol_zero_succ, mul_zero, Finset.sum_const_zero,
                add_zero]
              exact Real.mul_self_sqrt ha.le
            | succ j2 =>
              rw [Fin.sum_univ_succ]
              simp only [Matrix.transpose_apply, extendChol_zero_zero,
                extendChol_zero_succ, extendChol_succ_zero, zero_mul,
                Finset.sum_const_zero, add_zero]
              rw [mul_comm, div_mul_cancel₀ _ hsq]
              exact hsym 0 j2.succ
          | succ i2 =>
            induction j using Fin.cases with
            | zero =>
              rw [Fin.sum_univ_succ]
              simp only [Matrix.transpose_apply, extendChol_zero_zero,
                extendChol_zero_succ, extendChol_succ_zero, mul_zero,
                Finset.sum_const_zero, add_zero]
              rw [div_mul_cancel₀ _ hsq]
            | succ j2 =>
              rw [Fin.sum_univ_succ]
              simp only [Matrix.transpose_apply, extendChol_succ_zero,
                extendChol_succ_succ]
              have hMMij : ∑ k, M i2 k * M j2 k = schurMinor A i2 j2 := by
                have := congrFun (congrFun hMM i2) j2
                rw [Matrix.mul_apply] at this
                simpa [Matrix.transpose_apply] using this
              rw [hMMij]
              simp only [schurMinor]
              ring
    · rw [if_neg ha] at h
      exact absurd h (by simp)

end CholeskyLemmas

section CholeskyComplete

open Matrix

variable {n : ℕ}

theorem quadform_single (A : Matrix (Fin (n + 1)) (Fin (n + 1)) ℝ) :
    (Pi.single 0 1 : Fin (n + 1) → ℝ) ⬝ᵥ
      A.mulVec (Pi.single 0 1 : Fin (n + 1) → ℝ) = A 0 0 := by
  simp [dotProduct, Matrix.mulVec, Pi.single_apply, mul_ite, ite_mul,
    Finset.sum_ite_eq']

theorem quadform_cons (A : Matrix (Fin (n + 1)) (Fin (n + 1)) ℝ)
    (t : ℝ) (y : Fin n → ℝ) :
    (Fin.cons t y : Fin (n + 1) → ℝ) ⬝ᵥ
        A.mulVec (Fin.cons t y : Fin (n + 1) → ℝ)
      = A 0 0 * t * t + t * (∑ j, A 0 j.succ * y j)
        + (∑ i, y i * A i.succ 0) * t
        + ∑ i, y i * ∑ j, A i.succ j.succ * y j := by
  simp only [dotProduct, Matrix.mulVec, Fin.sum_univ_succ, Fin.cons_zero,
    Fin.cons_succ]
  have h2 : ∀ i : Fin n,
      y i * (A i.succ 0 * t + ∑ j, A i.succ j.succ * y j)
        = y i * A i.succ 0 * t + y i * ∑ j, A i.succ j.succ * y j :=
    fun i => by ring
  simp only [h2]
  rw [Finset.sum_add_distrib, Finset.sum_mul]
  ring

theorem quadform_minor (A : Matrix (Fin (n + 1)) (Fin (n + 1)) ℝ)
    (y : Fin n → ℝ) (ha : 0 < A 0 0) :
    y ⬝ᵥ (schurMinor A).mulVec y
      = (∑ i, y i * ∑ j, A i.succ j.succ * y j)
        - (∑ i, y i * A i.succ 0) * (∑ j, A j.succ 0 * y j) / A 0 0 := by
  have hss := Real.mul_self_sqrt ha.le
  simp only [dotProduct, Matrix.mulVec, schurMinor]
  have h1 : ∀ i : Fin n,
      ∑ j, (A i.succ j.succ -
          A i.succ 0 / Real.sqrt (A 0 0) *
            (A j.succ 0 / Real.sqrt (A 0 0))) * y j
        = ∑ j, A i.succ j.succ * y j -
            A i.succ 0 / Real.sqrt (A 0 0) *
              ∑ j, A j.succ 0 / Real.sqrt (A 0 0) * y j := by
    intro i
    rw [Finset.mul_sum, ← Finset.sum_sub_distrib]
    exact Finset.sum_congr rfl fun j _ => by ring
  simp only [h1]
  have h2 : ∀ i : Fin n,
      y i * (∑ j, A i.succ j.succ * y j -
          A i.succ 0 / Real.sqrt (A 0 0) *
            ∑ j, A j.succ 0 / Real.sqrt (A 0 0) * y j)
        = y i * ∑ j, A i.succ j.succ * y j -
            y i * A i.succ 0 / Real.sqrt (A 0 0) *
              ∑ j, A j.succ 0 / Real.sqrt (A 0 0) * y j :=
    fun i => by ring
  simp only [h2]
  rw [Finset.sum_sub_distrib, Finset.sum_mul]
  have h3 : ∑ j, A j.succ 0 / Real.sqrt (A 0 0) * y j
      = (∑ j, A j.succ 0 * y j) / Real.sqrt (A 0 0) := by
    rw [Finset.sum_div]
    exact Finset.sum_congr rfl fun j _ => by ring
  have h4 : ∑ i, y i * A i.succ 0 / Real.sqrt (A 0 0)
      = (∑ i, y i * A i.succ 0) / Real.sqrt (A 0 0) := by
    rw [Finset.sum_div]
  rw [h3, ← Finset.sum_mul, h4, div_mul_div_comm, hss, Finset.sum_mul]

theorem cons_ne_zero_of_ne_zero {t : ℝ} {y : Fin n → ℝ} (hy : y ≠ 0) :
    (Fin.cons t y : Fin (n + 1) → ℝ) ≠ 0 := by
  intro h
  apply hy
  funext j
  have := congrFun h j.succ
  simpa [Fin.cons_succ] using this

/-- Completeness of the Cholesky algorithm: on a symmetric positive
definite matrix it succeeds. -/
theorem cholesky_isSome : ∀ {n : ℕ} (A : Matrix (Fin n) (Fin n) ℝ),
    Aᵀ = A → PosDefM A → (cholesky A).isSome := by
  intro n
  induction n with
  | zero =>
    intro A _ _
    simp [cholesky]
  | succ n ih =>
    intro A hA hpd
    have hsym : ∀ i j, A j i = A i j := fun i j => by
      have := congrFun (congrFun hA i) j
      rwa [Matrix.transpose_apply] at this
    have hsingle : (Pi.single 0 1 : Fin (n + 1) → ℝ) ≠ 0 := by
      intro h
      have := congrFun h 0
      simp [Pi.single_apply] at this
    have ha : 0 < A 0 0 := by
      have := hpd _ hsingle
      rwa [quadform_single] at this
    have hminor_sym : (schurMinor A)ᵀ = schurMinor A := by
      ext i j
      rw [Matrix.transpose_apply]
      simp only [schurMinor]
      rw [hsym j.succ i.succ]
      ring
    have hmpd : PosDefM (schurMinor A) := by
      intro y hy
      set t : ℝ := -(∑ j, A j.succ 0 * y j) / A 0 0 with ht
      have hx := cons_ne_zero_of_ne_zero (t := t) hy
      have hpos := hpd _ hx
      rw [quadform_cons] at hpos
      rw [quadform_minor A y ha]
      have hcol : ∑ j, A 0 j.succ * y j = ∑ j, A j.succ 0 * y j :=
        Finset.sum_congr rfl fun j _ => by rw [hsym 0 j.succ]
      have hrow : ∑ i, y i * A i.succ 0 = ∑ j, A j.succ 0 * y j :=
        Finset.sum_congr rfl fun j _ => by ring
      rw [hcol, hrow] at hpos
      rw [hrow]
      have hane : A 0 0 ≠ 0 := ne_of_gt ha
      set C := ∑ j, A j.succ 0 * y j
      set Q := ∑ i, y i * ∑ j, A i.succ j.succ * y j
      have ht2 : A 0 0 * t * t + t * C + C * t = -(C * C / A 0 0) := by
        rw [ht]
        field_simp
        ring
      calc 0 < A 0 0 * t * t + t * C + C * t + Q := hpos
        _ = -(C * C / A 0 0) + Q := by rw [← ht2]
        _ = Q - C * C / A 0 0 := by ring
    have hms := ih (schurMinor A) hminor_sym hmpd
    rw [cholesky, if_pos ha]
    rcases hm : cholesky (schurMinor A) with _ | M
    · rw [hm] at hms
      simp at hms
    · simp

end CholeskyComplete

section DenseLemmas

open Matrix

variable {n : ℕ}

theorem upperTri_transpose {L : Matrix (Fin n) (Fin n) ℝ}
    (hL : LowerTri L) : UpperTri Lᵀ := fun i j hij => by
  rw [Matrix.transpose_apply]
  exact hL j i hij

theorem transpose_diag_ne_zero {L : Matrix (Fin n) (Fin n) ℝ}
    (hd : ∀ i, L i i ≠ 0) : ∀ i, Lᵀ i i ≠ 0 := fun i => by
  rw [Matrix.transpose_apply]
  exact hd i

/-- The two triangular solves of `apply_inverse` produce a solution of
`(L * Lᵀ) w = x`. -/
theorem dense_mulVec_apply_inverse {L : Matrix (Fin n) (Fin n) ℝ}
    (hL : LowerTri L) (hd : ∀ i, L i i ≠ 0) (x : Fin n → ℝ) :
    (L * Lᵀ).mulVec (backwardSolve Lᵀ (forwardSolve L x)) = x := by
  rw [← Matrix.mulVec_mulVec,
    mulVec_backwardSolve (upperTri_transpose hL) (transpose_diag_ne_zero hd),
    mulVec_forwardSolve hL hd]

theorem mul_transpose_mulVec_inj {L : Matrix (Fin n) (Fin n) ℝ}
    (hL : LowerTri L) (hd : ∀ i, L i i ≠ 0) {v w : Fin n → ℝ}
    (h : (L * Lᵀ).mulVec v = (L * Lᵀ).mulVec w) : v = w := by
  rw [← Matrix.mulVec_mulVec, ← Matrix.mulVec_mulVec] at h
  exact upperTri_mulVec_inj (upperTri_transpose hL) (transpose_diag_ne_zero hd)
    (lowerTri_mulVec_inj hL hd h)

theorem mul_transpose_posDef {L : Matrix (Fin n) (Fin n) ℝ}
    (hL : LowerTri L) (hd : ∀ i, L i i ≠ 0) : PosDefM (L * Lᵀ) := by
  intro x hx
  have h1 : x ⬝ᵥ (L * Lᵀ).mulVec x = (Lᵀ.mulVec x) ⬝ᵥ (Lᵀ.mulVec x) := by
    rw [← Matrix.mulVec_mulVec, Matrix.dotProduct_mulVec,
      ← Matrix.mulVec_transpose]
  rw [h1]
  have hux : Lᵀ.mulVec x ≠ 0 := fun h =>
    hx (upperTri_mulVec_zero (upperTri_transpose hL)
      (transpose_diag_ne_zero hd) h)
  rcases (Finset.sum_nonneg fun i _ =>
    mul_self_nonneg (Lᵀ.mulVec x i)).lt_or_eq with h | h
  · exact h
  · exact absurd (Matrix.dotProduct_self_eq_zero.mp h.symm) hux

/-- Extraction from a successful dense construction. -/
theorem make_ok_cholesky {A : Matrix (Fin n) (Fin n) ℝ}
    {c : DenseCovarianceMatrix n}
    (h : DenseCovarianceMatrix.make A = Except.ok c) :
    cholesky A = some c.cholFactor := by
  unfold DenseCovarianceMatrix.make at h
  rcases heq : cholesky A with _ | L
  · rw [heq] at h
    exact absurd h (by simp)
  · rw [heq] at h
    simp only [Except.ok.injEq] at h
    rw [← h]

end DenseLemmas

section CovarianceClaims

open Matrix

/-- C3: for every covariance implementation (diagonal, isotropic/IID,
dense) built from a positive-definite covariance, and every vector x of
matching dimension, `apply_inverse (chol_factor · (chol_factorᵀ · x)) = x`
(for the diagonal and IID variants the Cholesky factor is its own
transpose). -/
theorem covariance_chol_inv_round_trip :
    (∀ (d : ℕ) (v : Fin d → ℝ), (∀ i, 0 < v i) → ∀ x : Fin d → ℝ,
      (DiagonalCovarianceMatrix.ofMarginalVariances v).apply_inverse
        ((DiagonalCovarianceMatrix.ofMarginalVariances v).apply_chol_factor
          ((DiagonalCovarianceMatrix.ofMarginalVariances v).apply_chol_factor
            x)) = x)
    ∧ (∀ (d : ℕ) (variance : ℝ), 0 < variance → ∀ x : Fin d → ℝ,
      (IIDCovarianceMatrix d variance).apply_inverse
        ((IIDCovarianceMatrix d variance).apply_chol_factor
          ((IIDCovarianceMatrix d variance).apply_chol_factor x)) = x)
    ∧ (∀ (n : ℕ) (A : Matrix (Fin n) (Fin n) ℝ) (c : DenseCovarianceMatrix n),
        Aᵀ = A → PosDefM A → DenseCovarianceMatrix.make A = Except.ok c →
        ∀ x : Fin n → ℝ,
          c.apply_inverse (c.apply_chol_factor (c.cholFactorᵀ.mulVec x))
            = x) := by
  have hdiag : ∀ (d : ℕ) (v : Fin d → ℝ), (∀ i, 0 < v i) →
      ∀ x : Fin d → ℝ,
      (DiagonalCovarianceMatrix.ofMarginalVariances v).apply_inverse
        ((DiagonalCovarianceMatrix.ofMarginalVariances v).apply_chol_factor
          ((DiagonalCovarianceMatrix.ofMarginalVariances v).apply_chol_factor
            x)) = x := by
    intro d v hv x
    funext i
    simp only [DiagonalCovarianceMatrix.apply_inverse,
      DiagonalCovarianceMatrix.apply_chol_factor,
      DiagonalCovarianceMatrix.ofMarginalVariances, inv_inv]
    rw [← mul_assoc (Real.sqrt (v i)), Real.mul_self_sqrt (hv i).le,
      ← mul_assoc, inv_mul_cancel₀ (ne_of_gt (hv i)), one_mul]
  refine ⟨hdiag, ?_, ?_⟩
  · intro d variance hvar x
    exact hdiag d (fun _ => variance) (fun _ => hvar) x
  · intro n A c _ _ hmake x
    have hchol := make_ok_cholesky hmake
    obtain ⟨hlow, hdiagpos, _⟩ := cholesky_spec A c.cholFactor hchol
    have hdne : ∀ i, c.cholFactor i i ≠ 0 := fun i => ne_of_gt (hdiagpos i)
    apply mul_transpose_mulVec_inj hlow hdne
    show (c.cholFactor * c.cholFactorᵀ).mulVec
        (backwardSolve c.cholFactorᵀ (forwardSolve c.cholFactor
          (c.cholFactor.mulVec (c.cholFactorᵀ.mulVec x))))
      = (c.cholFactor * c.cholFactorᵀ).mulVec x
    rw [dense_mulVec_apply_inverse hlow hdne, Matrix.mulVec_mulVec]

/-- Witness for C3: concrete instances (marginal variance 4 in dimension
1, IID variance 4, and the empty dense covariance). -/
theorem covariance_chol_inv_round_trip_witness :
    (∀ i : Fin 1, (0 : ℝ) < (fun _ : Fin 1 => (4 : ℝ)) i)
    ∧ (DiagonalCovarianceMatrix.ofMarginalVariances
        (fun _ : Fin 1 => (4 : ℝ))).apply_inverse
        ((DiagonalCovarianceMatrix.ofMarginalVariances
          (fun _ : Fin 1 => (4 : ℝ))).apply_chol_factor
          ((DiagonalCovarianceMatrix.ofMarginalVariances
            (fun _ : Fin 1 => (4 : ℝ))).apply_chol_factor
            (fun _ => (3 : ℝ)))) = (fun _ => (3 : ℝ))
    ∧ (IIDCovarianceMatrix 1 4).apply_inverse
        ((IIDCovarianceMatrix 1 4).apply_chol_factor
          ((IIDCovarianceMatrix 1 4).apply_chol_factor
            (fun _ => (3 : ℝ)))) = (fun _ => (3 : ℝ))
    ∧ (DenseCovarianceMatrix.mk (0 : Matrix (Fin 0) (Fin 0) ℝ)).apply_inverse
        ((DenseCovarianceMatrix.mk (0 : Matrix (Fin 0) (Fin 0) ℝ)).apply_chol_factor
          ((DenseCovarianceMatrix.mk
            (0 : Matrix (Fin 0) (Fin 0) ℝ)).cholFactorᵀ.mulVec 0)) = 0 := by
  have hv : ∀ i : Fin 1, (0 : ℝ) < (fun _ : Fin 1 => (4 : ℝ)) i :=
    fun _ => by norm_num
  refine ⟨hv, covariance_chol_inv_round_trip.1 1 _ hv _,
    covariance_chol_inv_round_trip.2.1 1 4 (by norm_num) _,
    covariance_chol_inv_round_trip.2.2 0 0 _ ?_ ?_ rfl 0⟩
  · ext i j
    exact i.elim0
  · intro x hx
    exact absurd (funext fun i => i.elim0) hx

/-- C4: for every covariance implementation with positive-definite C,
`induced_norm_squared x` equals the dot product of x with
`apply_inverse x`, is non-negative, and vanishes exactly at x = 0. -/
theorem covariance_induced_norm_squared_spec :
    (∀ (d : ℕ) (v : Fin d → ℝ), (∀ i, 0 < v i) → ∀ x : Fin d → ℝ,
      (DiagonalCovarianceMatrix.ofMarginalVariances v).induced_norm_squared x
          = x ⬝ᵥ (DiagonalCovarianceMatrix.ofMarginalVariances v).apply_inverse x
        ∧ 0 ≤ (DiagonalCovarianceMatrix.ofMarginalVariances
            v).induced_norm_squared x
        ∧ ((DiagonalCovarianceMatrix.ofMarginalVariances
            v).induced_norm_squared x = 0 ↔ x = 0))
    ∧ (∀ (d : ℕ) (variance : ℝ), 0 < variance → ∀ x : Fin d → ℝ,
      (IIDCovarianceMatrix d variance).induced_norm_squared x
          = x ⬝ᵥ (IIDCovarianceMatrix d variance).apply_inverse x
        ∧ 0 ≤ (IIDCovarianceMatrix d variance).induced_norm_squared x
        ∧ ((IIDCovarianceMatrix d variance).induced_norm_squared x = 0
            ↔ x = 0))
    ∧ (∀ (n : ℕ) (A : Matrix (Fin n) (Fin n) ℝ) (c : DenseCovarianceMatrix n),
        Aᵀ = A → PosDefM A → DenseCovarianceMatrix.make A = Except.ok c →
        ∀ x : Fin n → ℝ,
        c.induced_norm_squared x = x ⬝ᵥ c.apply_inverse x
        ∧ 0 ≤ c.induced_norm_squared x
        ∧ (c.induced_norm_squared x = 0 ↔ x = 0)) := by
  have hdiag : ∀ (d : ℕ) (v : Fin d → ℝ), (∀ i, 0 < v i) →
      ∀ x : Fin d → ℝ,
      (DiagonalCovarianceMatrix.ofMarginalVariances v).induced_norm_squared x
          = x ⬝ᵥ (DiagonalCovarianceMatrix.ofMarginalVariances v).apply_inverse x
        ∧ 0 ≤ (DiagonalCovarianceMatrix.ofMarginalVariances
            v).induced_norm_squared x
        ∧ ((DiagonalCovarianceMatrix.ofMarginalVariances
            v).induced_norm_squared x = 0 ↔ x = 0) := by
    intro d v hv x
    have hsum : (DiagonalCovarianceMatrix.ofMarginalVariances
        v).induced_norm_squared x = ∑ i, (v i)⁻¹ * x i ^ 2 := by
      simp only [DiagonalCovarianceMatrix.induced_norm_squared,
        inducedNormSquared, DiagonalCovarianceMatrix.apply_inverse,
        DiagonalCovarianceMatrix.ofMarginalVariances, dotProduct]
      exact Finset.sum_congr rfl fun i _ => by ring
    have hterm_nonneg : ∀ i : Fin d, 0 ≤ (v i)⁻¹ * x i ^ 2 :=
      fun i => mul_nonneg (inv_nonneg.mpr (hv i).le) (sq_nonneg _)
    refine ⟨rfl, ?_, ?_⟩
    · rw [hsum]
      exact Finset.sum_nonneg fun i _ => hterm_nonneg i
    · rw [hsum]
      constructor
      · intro h
        funext i
        have := (Finset.sum_eq_zero_iff_of_nonneg
          (fun i _ => hterm_nonneg i)).mp h i (Finset.mem_univ i)
        rcases mul_eq_zero.mp this with h2 | h2
        · exact absurd h2 (inv_ne_zero (ne_of_gt (hv i)))
        · exact pow_eq_zero_iff (by norm_num) |>.mp h2
      · intro h
        subst h
        simp
  refine ⟨hdiag, ?_, ?_⟩
  · intro d variance hvar x
    exact hdiag d (fun _ => variance) (fun _ => hvar) x
  · intro n A c _ _ hmake x
    have hchol := make_ok_cholesky hmake
    obtain ⟨hlow, hdiagpos, _⟩ := cholesky_spec A c.cholFactor hchol
    have hdne : ∀ i, c.cholFactor i i ≠ 0 := fun i => ne_of_gt (hdiagpos i)
    set L := c.cholFactor with hLdef
    set w := c.apply_inverse x with hw
    have hLLw : (L * Lᵀ).mulVec w = x := dense_mulVec_apply_inverse hlow hdne x
    set u := Lᵀ.mulVec w with hu
    have hxw : x ⬝ᵥ w = u ⬝ᵥ u := by
      rw [← hLLw, ← Matrix.mulVec_mulVec, ← hu, Matrix.dotProduct_mulVec,
        ← Matrix.mulVec_transpose, Matrix.transpose_transpose]
    have hux_zero : u = 0 ↔ x = 0 := by
      constructor
      · intro h
        have hwz : w = 0 := upperTri_mulVec_zero (upperTri_transpose hlow)
          (transpose_diag_ne_zero hdne) h
        rw [← hLLw, hwz, Matrix.mulVec_zero]
      · intro h
        have hwz : w = 0 := by
          apply mul_transpose_mulVec_inj hlow hdne
          rw [hLLw, h, Matrix.mulVec_zero]
        rw [hu, hwz, Matrix.mulVec_zero]
    refine ⟨rfl, ?_, ?_⟩
    · show 0 ≤ x ⬝ᵥ w
      rw [hxw]
      exact Finset.sum_nonneg fun i _ => mul_self_nonneg (u i)
    · show x ⬝ᵥ w = 0 ↔ x = 0
      rw [hxw, Matrix.dotProduct_self_eq_zero, hux_zero]

/-- Witness for C4: concrete instances (marginal variance 4 in dimension
1, IID variance 4, and the empty dense covariance). -/
theorem covariance_induced_norm_squared_spec_witness :
    (∀ i : Fin 1, (0 : ℝ) < (fun _ : Fin 1 => (4 : ℝ)) i)
    ∧ ((DiagonalCovarianceMatrix.ofMarginalVariances
        (fun _ : Fin 1 => (4 : ℝ))).induced_norm_squared (fun _ => (3 : ℝ))
          = (fun _ : Fin 1 => (3 : ℝ)) ⬝ᵥ
            (DiagonalCovarianceMatrix.ofMarginalVariances
              (fun _ : Fin 1 => (4 : ℝ))).apply_inverse (fun _ => (3 : ℝ))
        ∧ 0 ≤ (DiagonalCovarianceMatrix.ofMarginalVariances
            (fun _ : Fin 1 => (4 : ℝ))).induced_norm_squared
              (fun _ => (3 : ℝ))
        ∧ ((DiagonalCovarianceMatrix.ofMarginalVariances
            (fun _ : Fin 1 => (4 : ℝ))).induced_norm_squared
              (fun _ => (3 : ℝ)) = 0 ↔ (fun _ : Fin 1 => (3 : ℝ)) = 0))
    ∧ ((IIDCovarianceMatrix 1 4).induced_norm_squared (fun _ => (3 : ℝ))
          = (fun _ : Fin 1 => (3 : ℝ)) ⬝ᵥ
            (IIDCovarianceMatrix 1 4).apply_inverse (fun _ => (3 : ℝ))
        ∧ 0 ≤ (IIDCovarianceMatrix 1 4).induced_norm_squared
            (fun _ => (3 : ℝ))
        ∧ ((IIDCovarianceMatrix 1 4).induced_norm_squared
            (fun _ => (3 : ℝ)) = 0 ↔ (fun _ : Fin 1 => (3 : ℝ)) = 0))
    ∧ ((DenseCovarianceMatrix.mk
          (0 : Matrix (Fin 0) (Fin 0) ℝ)).induced_norm_squared 0
          = (0 : Fin 0 → ℝ) ⬝ᵥ (DenseCovarianceMatrix.mk
              (0 : Matrix (Fin 0) (Fin 0) ℝ)).apply_inverse 0
        ∧ 0 ≤ (DenseCovarianceMatrix.mk
            (0 : Matrix (Fin 0) (Fin 0) ℝ)).induced_norm_squared 0
        ∧ ((DenseCovarianceMatrix.mk
            (0 : Matrix (Fin 0) (Fin 0) ℝ)).induced_norm_squared 0 = 0
              ↔ (0 : Fin 0 → ℝ) = 0)) := by
  have hv : ∀ i : Fin 1, (0 : ℝ) < (fun _ : Fin 1 => (4 : ℝ)) i :=
    fun _ => by norm_num
  exact ⟨hv, covariance_induced_norm_squared_spec.1 1 _ hv _,
    covariance_induced_norm_squared_spec.2.1 1 4 (by norm_num) _,
    covariance_induced_norm_squared_spec.2.2 0 0 _
      (by ext i j; exact i.elim0)
      (fun x hx => absurd (funext fun i => i.elim0) hx) rfl 0⟩

end CovarianceClaims

section DenseConstructionClaim

open Matrix

/-- C7: constructing a dense covariance operator from a symmetric matrix
whose Cholesky factorisation cannot be computed (not positive definite)
fails with an ill-conditioned error; for a positive-definite input,
construction succeeds with the precomputed lower Cholesky factor stored
once, and `apply_inverse` — realised as two triangular solves — yields
the (unique) solution of C w = x, i.e. C⁻¹x. -/
theorem dense_covariance_construction :
    (∀ (n : ℕ) (A : Matrix (Fin n) (Fin n) ℝ), Aᵀ = A → ¬ PosDefM A →
      DenseCovarianceMatrix.make A
        = Except.error CovarianceError.illConditioned)
    ∧ (∀ (n : ℕ) (A : Matrix (Fin n) (Fin n) ℝ), Aᵀ = A → PosDefM A →
      ∃ c : DenseCovarianceMatrix n,
        DenseCovarianceMatrix.make A = Except.ok c
        ∧ cholesky A = some c.cholFactor
        ∧ LowerTri c.cholFactor
        ∧ c.cholFactor * c.cholFactorᵀ = A
        ∧ ∀ x : Fin n → ℝ,
            c.apply_inverse x
              = backwardSolve c.cholFactorᵀ (forwardSolve c.cholFactor x)
            ∧ A.mulVec (c.apply_inverse x) = x
            ∧ ∀ y : Fin n → ℝ, A.mulVec y = x → y = c.apply_inverse x) := by
  constructor
  · intro n A hA hnpd
    rcases heq : cholesky A with _ | L
    · unfold DenseCovarianceMatrix.make
      rw [heq]
    · exfalso
      apply hnpd
      obtain ⟨hlow, hdiagpos, hmul⟩ := cholesky_spec A L heq
      rw [← hmul hA]
      exact mul_transpose_posDef hlow (fun i => ne_of_gt (hdiagpos i))
  · intro n A hA hpd
    obtain ⟨L, heq⟩ := Option.isSome_iff_exists.mp (cholesky_isSome A hA hpd)
    obtain ⟨hlow, hdiagpos, hmul⟩ := cholesky_spec A L heq
    have hdne : ∀ i, L i i ≠ 0 := fun i => ne_of_gt (hdiagpos i)
    have hLLA : L * Lᵀ = A := hmul hA
    refine ⟨⟨L⟩, ?_, heq, hlow, hLLA, ?_⟩
    · unfold DenseCovarianceMatrix.make
      rw [heq]
    · intro x
      refine ⟨rfl, ?_, ?_⟩
      · rw [← hLLA]
        exact dense_mulVec_apply_inverse hlow hdne x
      · intro y hy
        apply mul_transpose_mulVec_inj hlow hdne
        have h2 : (L * Lᵀ).mulVec
            ((DenseCovarianceMatrix.mk L).apply_inverse x) = x :=
          dense_mulVec_apply_inverse hlow hdne x
        rw [hLLA] at h2 ⊢
        rw [hy, h2]

/-- Witness for C7: the 1-by-1 matrix (-1) is symmetric and not positive
definite and construction fails; the empty matrix is symmetric positive
definite and construction succeeds. -/
theorem dense_covariance_construction_witness :
    (negOneMatᵀ = negOneMat
      ∧ ¬ PosDefM negOneMat
      ∧ DenseCovarianceMatrix.make negOneMat
          = Except.error CovarianceError.illConditioned)
    ∧ ∃ c : DenseCovarianceMatrix 0,
        DenseCovarianceMatrix.make (0 : Matrix (Fin 0) (Fin 0) ℝ)
            = Except.ok c
        ∧ cholesky (0 : Matrix (Fin 0) (Fin 0) ℝ) = some c.cholFactor
        ∧ LowerTri c.cholFactor
        ∧ c.cholFactor * c.cholFactorᵀ = (0 : Matrix (Fin 0) (Fin 0) ℝ)
        ∧ ∀ x : Fin 0 → ℝ,
            c.apply_inverse x
              = backwardSolve c.cholFactorᵀ (forwardSolve c.cholFactor x)
            ∧ (0 : Matrix (Fin 0) (Fin 0) ℝ).mulVec (c.apply_inverse x) = x
            ∧ ∀ y : Fin 0 → ℝ,
                (0 : Matrix (Fin 0) (Fin 0) ℝ).mulVec y = x →
                  y = c.apply_inverse x := by
  have hsymm : negOneMatᵀ = negOneMat := by
    ext i j
    rfl
  have hnpd : ¬ PosDefM negOneMat := by
    intro hpd
    have hone : (fun _ : Fin 1 => (1 : ℝ)) ≠ 0 := by
      intro h
      have := congrFun h 0
      norm_num at this
    have := hpd _ hone
    simp only [negOneMat, dotProduct, Matrix.mulVec, Fin.sum_univ_one] at this
    norm_num at this
  refine ⟨⟨hsymm, hnpd,
    dense_covariance_construction.1 1 negOneMat hsymm hnpd⟩, ?_⟩
  exact dense_covariance_construction.2 0 0 (by ext i j; exact i.elim0)
    (fun x hx => absurd (funext fun i => i.elim0) hx)

/-- C9: an isotropic (IID) covariance of dimension d and variance v is
observationally equivalent to the diagonal covariance built from the
constant variance vector (v, ..., v): same dimension, and agreeing
`apply_chol_factor`, `apply_inverse` and `induced_norm_squared` on every
input vector. -/
theorem iid_equiv_constant_diagonal (d : ℕ) (variance : ℝ) :
    (IIDCovarianceMatrix d variance).dimension
        = (DiagonalCovarianceMatrix.ofMarginalVariances
            (fun _ : Fin d => variance)).dimension
    ∧ ∀ x : Fin d → ℝ,
        (IIDCovarianceMatrix d variance).apply_chol_factor x
            = (DiagonalCovarianceMatrix.ofMarginalVariances
                (fun _ : Fin d => variance)).apply_chol_factor x
        ∧ (IIDCovarianceMatrix d variance).apply_inverse x
            = (DiagonalCovarianceMatrix.ofMarginalVariances
                (fun _ : Fin d => variance)).apply_inverse x
        ∧ (IIDCovarianceMatrix d variance).induced_norm_squared x
            = (DiagonalCovarianceMatrix.ofMarginalVariances
                (fun _ : Fin d => variance)).induced_norm_squared x :=
  ⟨rfl, fun _ => ⟨rfl, rfl, rfl⟩⟩

end DenseConstructionClaim

section WelfordLemmas

theorem welford_scalar_step (t : List ℝ) (w : WelfordScalar) (x : ℝ)
    (h1 : w.n = t.length)
    (h2 : w.mean * (t.length : ℝ) = t.sum)
    (h3 : w.M2 = (t.map fun y => y ^ 2).sum - t.sum ^ 2 / (t.length : ℝ)) :
    (welfordScalarUpdate w x).n = (t ++ [x]).length
    ∧ (welfordScalarUpdate w x).mean * ((t ++ [x]).length : ℝ)
        = (t ++ [x]).sum
    ∧ (welfordScalarUpdate w x).M2
        = ((t ++ [x]).map fun y => y ^ 2).sum
          - (t ++ [x]).sum ^ 2 / ((t ++ [x]).length : ℝ) := by
  have hcast : (((w.n + 1 : ℕ)) : ℝ) = (w.n : ℝ) + 1 := by
    push_cast
    ring
  have hmean2 : (welfordScalarUpdate w x).mean
      = w.mean + (x - w.mean) / ((w.n : ℝ) + 1) := by
    simp only [welfordScalarUpdate, hcast]
  have hM22 : (welfordScalarUpdate w x).M2
      = w.M2 + (x - w.mean)
          * (x - (w.mean + (x - w.mean) / ((w.n : ℝ) + 1))) := by
    simp only [welfordScalarUpdate, hcast]
  have hlen2 : (t ++ [x]).length = t.length + 1 := by simp
  have hlen : ((t ++ [x]).length : ℝ) = (t.length : ℝ) + 1 := by
    rw [hlen2]
    push_cast
    ring
  have hsum : (t ++ [x]).sum = t.sum + x := by simp
  have hmap : ((t ++ [x]).map fun y => y ^ 2).sum
      = (t.map fun y => y ^ 2).sum + x ^ 2 := by simp
  have hN1 : ((t.length : ℝ) + 1) ≠ 0 := by positivity
  refine ⟨by simp [welfordScalarUpdate, h1], ?_, ?_⟩
  · rw [hmean2, h1, hlen, hsum]
    have expand : (w.mean + (x - w.mean) / ((t.length : ℝ) + 1))
        * ((t.length : ℝ) + 1) = w.mean * (t.length : ℝ) + x := by
      field_simp
      ring
    rw [expand, h2]
  · rw [hM22, h1, hlen, hsum, hmap, h3]
    rcases t with _ | ⟨a, t2⟩
    · norm_num
    · have hN0pos : (0 : ℝ) < ((a :: t2).length : ℝ) := by
        exact_mod_cast Nat.succ_pos t2.length
      have hN0 : ((a :: t2).length : ℝ) ≠ 0 := ne_of_gt hN0pos
      have hm : w.mean = (a :: t2).sum / ((a :: t2).length : ℝ) :=
        eq_div_of_mul_eq hN0 h2
      rw [hm]
      have hN1b : ((a :: t2).length : ℝ) + 1 ≠ 0 := by positivity
      field_simp
      ring

theorem welford_scalar_foldl (s : List ℝ) : ∀ (t : List ℝ) (w : WelfordScalar),
    w.n = t.length →
    w.mean * (t.length : ℝ) = t.sum →
    w.M2 = (t.map fun y => y ^ 2).sum - t.sum ^ 2 / (t.length : ℝ) →
    (s.foldl welfordScalarUpdate w).n = (t ++ s).length
    ∧ (s.foldl welfordScalarUpdate w).mean * ((t ++ s).length : ℝ)
        = (t ++ s).sum
    ∧ (s.foldl welfordScalarUpdate w).M2
        = ((t ++ s).map fun y => y ^ 2).sum
          - (t ++ s).sum ^ 2 / ((t ++ s).length : ℝ) := by
  induction s with
  | nil =>
    intro t w h1 h2 h3
    simpa using ⟨h1, h2, h3⟩
  | cons x s ih =>
    intro t w h1 h2 h3
    obtain ⟨g1, g2, g3⟩ := welford_scalar_step t w x h1 h2 h3
    have hres := ih (t ++ [x]) (welfordScalarUpdate w x) g1 g2 g3
    simpa [List.append_assoc] using hres

theorem sum_sq_dev (t : List ℝ) (m : ℝ) :
    (t.map (fun y => (y - m) ^ 2)).sum
      = (t.map fun y => y ^ 2).sum - 2 * m * t.sum
        + (t.length : ℝ) * m ^ 2 := by
  induction t with
  | nil => simp
  | cons a t ih =>
    simp only [List.map_cons, List.sum_cons, List.length_cons, ih]
    push_cast
    ring

theorem welford_component_process {d : ℕ} (w : WelfordAccumulator d)
    (x : Fin d → ℝ) (i : Fin d) :
    (w.process x).component i
      = welfordScalarUpdate (w.component i) (x i) := rfl

theorem welford_component_processList {d : ℕ} (s : List (Fin d → ℝ)) :
    ∀ (w : WelfordAccumulator d) (i : Fin d),
    (w.processList s).component i
      = (s.map (fun v => v i)).foldl welfordScalarUpdate (w.component i) := by
  induction s with
  | nil => intro w i; rfl
  | cons x s ih =>
    intro w i
    show ((w.process x).processList s).component i = _
    rw [ih (w.process x) i, welford_component_process]
    simp [List.foldl_cons]

end WelfordLemmas

section WelfordClaim

/-- C5: for any finite sequence of at least 2 vectors ingested by the
Welford accumulator, the accumulated mean equals the elementwise
arithmetic mean of the sequence and its variance (M₂ / (n-1)) equals the
elementwise unbiased sample variance. -/
theorem welford_mean_and_variance {d : ℕ} (s : List (Fin d → ℝ))
    (hlen : 2 ≤ s.length) :
    (∀ i : Fin d, ((WelfordAccumulator.init d).processList s).mean i
        = listMean (s.map (fun v => v i)))
    ∧ ∀ i : Fin d,
        ((WelfordAccumulator.init d).processList s).marginal_variance i
          = listSampleVariance (s.map (fun v => v i)) := by
  have hbase : ∀ i : Fin d,
      ((WelfordAccumulator.init d).processList s).component i
        = (s.map (fun v => v i)).foldl welfordScalarUpdate
            welfordScalarInit := by
    intro i
    rw [welford_component_processList]
    rfl
  have hinv : ∀ i : Fin d,
      ((s.map (fun v => v i)).foldl welfordScalarUpdate
          welfordScalarInit).n = s.length
      ∧ ((s.map (fun v => v i)).foldl welfordScalarUpdate
          welfordScalarInit).mean * (s.length : ℝ)
          = (s.map (fun v => v i)).sum
      ∧ ((s.map (fun v => v i)).foldl welfordScalarUpdate
          welfordScalarInit).M2
          = ((s.map (fun v => v i)).map fun y => y ^ 2).sum
            - (s.map (fun v => v i)).sum ^ 2 / (s.length : ℝ) := by
    intro i
    have := welford_scalar_foldl (s.map (fun v => v i)) []
      welfordScalarInit rfl (by simp [welfordScalarInit])
      (by simp [welfordScalarInit])
    simpa using this
  have hlenR : ((s.length : ℝ)) ≠ 0 := by
    have : (2 : ℝ) ≤ (s.length : ℝ) := by exact_mod_cast hlen
    linarith
  constructor
  · intro i
    obtain ⟨hn, hmean, _⟩ := hinv i
    have hcomp := hbase i
    have hmeani : ((WelfordAccumulator.init d).processList s).mean i
        = ((s.map (fun v => v i)).foldl welfordScalarUpdate
            welfordScalarInit).mean := by
      have := congrArg WelfordScalar.mean hcomp
      exact this
    rw [hmeani, listMean]
    rw [List.length_map]
    field_simp
    linarith [hmean]
  · intro i
    obtain ⟨hn, hmean, hM2⟩ := hinv i
    have hcomp := hbase i
    have hM2i : ((WelfordAccumulator.init d).processList s).M2 i
        = ((s.map (fun v => v i)).foldl welfordScalarUpdate
            welfordScalarInit).M2 := congrArg WelfordScalar.M2 hcomp
    have hni : ((WelfordAccumulator.init d).processList s).n
        = ((s.map (fun v => v i)).foldl welfordScalarUpdate
            welfordScalarInit).n := congrArg WelfordScalar.n hcomp
    have hmeanval : ((s.map (fun v => v i)).foldl welfordScalarUpdate
        welfordScalarInit).mean = (s.map (fun v => v i)).sum / (s.length : ℝ) := by
      field_simp
      linarith [hmean]
    unfold WelfordAccumulator.marginal_variance listSampleVariance
    rw [hM2i, hM2, hni, hn, List.length_map]
    congr 1
    rw [sum_sq_dev, listMean, List.length_map]
    field_simp
    ring

/-- Witness for C5 at the two-element sequence ((1), (3)) in dimension 1:
mean 2 and unbiased variance 2. -/
theorem welford_mean_and_variance_witness :
    2 ≤ ([fun _ => 1, fun _ => 3] : List (Fin 1 → ℝ)).length
    ∧ ((WelfordAccumulator.init 1).processList
        ([fun _ => 1, fun _ => 3] : List (Fin 1 → ℝ))).mean 0
        = listMean (([fun _ => 1, fun _ => 3] : List (Fin 1 → ℝ)).map
            (fun v => v 0))
    ∧ ((WelfordAccumulator.init 1).processList
        ([fun _ => 1, fun _ => 3] : List (Fin 1 → ℝ))).marginal_variance 0
        = listSampleVariance
            (([fun _ => 1, fun _ => 3] : List (Fin 1 → ℝ)).map
              (fun v => v 0)) := by
  have h2 : 2 ≤ ([fun _ => 1, fun _ => 3] : List (Fin 1 → ℝ)).length := by
    norm_num
  exact ⟨h2, (welford_mean_and_variance _ h2).1 0,
    (welford_mean_and_variance _ h2).2 0⟩

end WelfordClaim

section MHKernelLemmas

theorem mhSteps_length {P : Type} (logPost : P → ℝ) (logRatio : P → P → ℝ)
    (propose : ℕ → P → P) (u : ℕ → ℝ) :
    ∀ (nSteps k : ℕ) (x : P),
      (mhSteps logPost logRatio propose u nSteps k x).length = nSteps := by
  intro nSteps
  induction nSteps with
  | zero => intro k x; rfl
  | succ n ih =>
    intro k x
    simp only [mhSteps]
    split
    · simp [ih]
    · simp [ih]

theorem mhSteps_rejected_repeats {P : Type} (logPost : P → ℝ)
    (logRatio : P → P → ℝ) (propose : ℕ → P → P) (u : ℕ → ℝ) :
    ∀ (nSteps k : ℕ) (x : P) (t : TransitionData P), t.state = x →
    ∀ (m : ℕ) (t1 t2 : TransitionData P),
      (t :: mhSteps logPost logRatio propose u nSteps k x)[m]? = some t1 →
      (t :: mhSteps logPost logRatio propose u nSteps k x)[m + 1]?
        = some t2 →
      t2.outcome = TransitionOutcome.rejected →
      t2.state = t1.state := by
  intro nSteps
  induction nSteps with
  | zero =>
    intro k x t ht m t1 t2 h1 h2 hout
    rcases m with _ | m2
    · simp only [mhSteps, List.getElem?_cons_succ,
        List.getElem?_nil] at h2
      exact Option.noConfusion h2
    · simp only [mhSteps, List.getElem?_cons_succ,
        List.getElem?_nil] at h2
      exact Option.noConfusion h2
  | succ n ih =>
    intro k x t ht m t1 t2 h1 h2 hout
    by_cases hacc : mhAccept
      (logPost (propose k x) - logPost x + logRatio x (propose k x)) (u k)
    · simp only [mhSteps, if_pos hacc] at h1 h2
      rcases m with _ | m2
      · simp only [List.getElem?_cons_zero, List.getElem?_cons_succ,
          Option.some.injEq] at h1 h2
        rw [← h2] at hout
        simp at hout
      · exact ih (k + 1) (propose k x)
          ⟨propose k x, TransitionOutcome.accepted⟩ rfl m2 t1 t2
          (by simpa using h1) (by simpa using h2) hout
    · simp only [mhSteps, if_neg hacc] at h1 h2
      rcases m with _ | m2
      · simp only [List.getElem?_cons_zero, List.getElem?_cons_succ,
          Option.some.injEq] at h1 h2
        rw [← h1, ← h2, ht]
      · exact ih (k + 1) x ⟨x, TransitionOutcome.rejected⟩ rfl m2 t1 t2
          (by simpa using h1) (by simpa using h2) hout

end MHKernelLemmas

section MHKernelClaim

/-- C6: after run(n, x_0) the trajectory has length n+1, begins with x_0
emitted as a synthetic ACCEPTED transition, and every REJECTED transition
repeats the previous state exactly (elementwise). -/
theorem mh_run_trajectory {d : ℕ} (logPost : (Fin d → ℝ) → ℝ)
    (logRatio : (Fin d → ℝ) → (Fin d → ℝ) → ℝ)
    (propose : ℕ → (Fin d → ℝ) → Fin d → ℝ) (u : ℕ → ℝ) (nSteps : ℕ)
    (x0 : Fin d → ℝ) :
    (mhRun logPost logRatio propose u nSteps x0).length = nSteps + 1
    ∧ (mhRun logPost logRatio propose u nSteps x0).head?
        = some ⟨x0, TransitionOutcome.accepted⟩
    ∧ ∀ (m : ℕ) (t1 t2 : TransitionData (Fin d → ℝ)),
        (mhRun logPost logRatio propose u nSteps x0)[m]? = some t1 →
        (mhRun logPost logRatio propose u nSteps x0)[m + 1]? = some t2 →
        t2.outcome = TransitionOutcome.rejected →
        ∀ i : Fin d, t2.state i = t1.state i := by
  refine ⟨?_, rfl, ?_⟩
  · simp [mhRun, mhSteps_length]
  · intro m t1 t2 h1 h2 hout i
    have := mhSteps_rejected_repeats logPost logRatio propose u nSteps 1 x0
      ⟨x0, TransitionOutcome.accepted⟩ rfl m t1 t2 h1 h2 hout
    rw [this]

end MHKernelClaim

section MHKernelWitness

/-- Witness for C6: with a constant-zero log posterior, identity
proposals and uniform draws fixed at 2 (whose log is positive), a 1-step
run from x_0 = (5) produces the trajectory [(x_0, ACCEPTED),
(x_0, REJECTED)], and the rejected transition repeats the state. -/
theorem mh_run_trajectory_witness :
    (mhRun (fun _ : Fin 1 → ℝ => (0 : ℝ)) (fun _ _ => 0) (fun _ x => x)
        (fun _ => 2) 1 (fun _ => 5)).length = 1 + 1
    ∧ (mhRun (fun _ : Fin 1 → ℝ => (0 : ℝ)) (fun _ _ => 0) (fun _ x => x)
        (fun _ => 2) 1 (fun _ => 5)).head?
        = some ⟨fun _ => 5, TransitionOutcome.accepted⟩
    ∧ (mhRun (fun _ : Fin 1 → ℝ => (0 : ℝ)) (fun _ _ => 0) (fun _ x => x)
        (fun _ => 2) 1 (fun _ => 5))[0]?
        = some ⟨fun _ => 5, TransitionOutcome.accepted⟩
    ∧ (mhRun (fun _ : Fin 1 → ℝ => (0 : ℝ)) (fun _ _ => 0) (fun _ x => x)
        (fun _ => 2) 1 (fun _ => 5))[1]?
        = some ⟨fun _ => 5, TransitionOutcome.rejected⟩
    ∧ (⟨fun _ => 5, TransitionOutcome.rejected⟩
        : TransitionData (Fin 1 → ℝ)).state 0
      = (⟨fun _ => 5, TransitionOutcome.accepted⟩
          : TransitionData (Fin 1 → ℝ)).state 0 := by
  have hno : ¬ Real.log 2 < 0 := not_lt.mpr (Real.log_nonneg one_le_two)
  have e : mhRun (fun _ : Fin 1 → ℝ => (0 : ℝ)) (fun _ _ => 0)
      (fun _ x => x) (fun _ => 2) 1 (fun _ => 5)
      = [⟨fun _ => 5, TransitionOutcome.accepted⟩,
         ⟨fun _ => 5, TransitionOutcome.rejected⟩] := by
    simp [mhRun, mhSteps, mhAccept, hno]
  have main := mh_run_trajectory (d := 1) (fun _ => (0 : ℝ)) (fun _ _ => 0)
    (fun _ x => x) (fun _ => 2) 1 (fun _ => 5)
  have h1 : (mhRun (fun _ : Fin 1 → ℝ => (0 : ℝ)) (fun _ _ => 0)
      (fun _ x => x) (fun _ => 2) 1 (fun _ => 5))[0]?
      = some ⟨fun _ => 5, TransitionOutcome.accepted⟩ := by
    rw [e]
    rfl
  have h2 : (mhRun (fun _ : Fin 1 → ℝ => (0 : ℝ)) (fun _ _ => 0)
      (fun _ x => x) (fun _ => 2) 1 (fun _ => 5))[1]?
      = some ⟨fun _ => 5, TransitionOutcome.rejected⟩ := by
    rw [e]
    rfl
  exact ⟨main.1, main.2.1, h1, h2, main.2.2 0 _ _ h1 h2 rfl 0⟩

end MHKernelWitness

section BuilderClaim

/-- C8: building an MRW method from a builder without a proposal
covariance fails with InvalidBuilder at construction time, on both the
build-from-model and build-from-explicit-target paths. -/
theorem mrw_builder_requires_covariance {M T C : Type}
    (b : MRWBuilder M T C) (h : b.proposalCovariance = none) :
    b.build_from_model
        = Except.error (BuilderError.invalidBuilder
            "Proposal Covariance not set for MRW")
    ∧ b.build_from_target
        = Except.error (BuilderError.invalidBuilder
            "Proposal Covariance not set for MRW") := by
  constructor
  · simp only [MRWBuilder.build_from_model,
      MRWBuilder.validate_parameters, h]
  · simp only [MRWBuilder.build_from_target,
      MRWBuilder.validate_parameters, h]

/-- Witness for C8: the freshly initialised builder (nothing set). -/
theorem mrw_builder_requires_covariance_witness :
    (MRWBuilder.mk none none none
        : MRWBuilder Unit Unit Unit).proposalCovariance = none
    ∧ (MRWBuilder.mk none none none
        : MRWBuilder Unit Unit Unit).build_from_model
        = Except.error (BuilderError.invalidBuilder
            "Proposal Covariance not set for MRW")
    ∧ (MRWBuilder.mk none none none
        : MRWBuilder Unit Unit Unit).build_from_target
        = Except.error (BuilderError.invalidBuilder
            "Proposal Covariance not set for MRW") :=
  ⟨rfl, (mrw_builder_requires_covariance _ rfl).1,
    (mrw_builder_requires_covariance _ rfl).2⟩

end BuilderClaim

section ProposalLemmas

theorem mrw_proposal_foldl_cov {d : ℕ} {C : Type}
    (xs : List (Fin d → ℝ)) : ∀ p : MRWProposal d C,
    (xs.foldl MRWProposal.set_state p).cov = p.cov := by
  induction xs with
  | nil => intro p; rfl
  | cons x xs ih =>
    intro p
    rw [List.foldl_cons, ih]
    rfl

end ProposalLemmas

section ProposalClaim

/-- C10: starting from a freshly constructed MRW proposal,
`generate_proposal` fails exactly when `set_state` has never been called;
after the calls `set_state(x_1), ..., set_state(x_k)` (k ≥ 1) the stored
proposal law is the Gaussian with mean x_k and the configured proposal
covariance, the generated realisation is x_k + chol(cov)·z, and the
proposal covariance is unchanged. -/
theorem mrw_proposal_generate_spec {d : ℕ} {C : Type}
    (applyChol : C → (Fin d → ℝ) → Fin d → ℝ) (proposalCov : C)
    (xs : List (Fin d → ℝ)) (z : Fin d → ℝ) :
    ((xs.foldl MRWProposal.set_state
        (MRWProposal.init proposalCov)).generate_proposal applyChol z
        = Except.error ProposalError.undefinedState ↔ xs = [])
    ∧ (xs.foldl MRWProposal.set_state
        (MRWProposal.init proposalCov)).cov = proposalCov
    ∧ ∀ x : Fin d → ℝ, xs.getLast? = some x →
        (xs.foldl MRWProposal.set_state
            (MRWProposal.init proposalCov)).proposalLaw
          = some ⟨x, proposalCov⟩
        ∧ (xs.foldl MRWProposal.set_state
            (MRWProposal.init proposalCov)).generate_proposal applyChol z
          = Except.ok (fun i => x i + applyChol proposalCov z i) := by
  rcases List.eq_nil_or_concat xs with rfl | ⟨ys, x2, hconcat⟩
  · refine ⟨by simp [MRWProposal.generate_proposal, MRWProposal.init],
      rfl, ?_⟩
    intro x hx
    simp at hx
  · rw [List.concat_eq_append] at hconcat
    subst hconcat
    have hcov : ((ys ++ [x2]).foldl MRWProposal.set_state
        (MRWProposal.init proposalCov)).cov = proposalCov :=
      mrw_proposal_foldl_cov (ys ++ [x2]) (MRWProposal.init proposalCov)
    have hfold : (ys ++ [x2]).foldl MRWProposal.set_state
        (MRWProposal.init proposalCov)
        = MRWProposal.set_state
            (ys.foldl MRWProposal.set_state (MRWProposal.init proposalCov))
            x2 := by
      rw [List.foldl_append, List.foldl_cons, List.foldl_nil]
    have hcov2 : (ys.foldl MRWProposal.set_state
        (MRWProposal.init proposalCov)).cov = proposalCov :=
      mrw_proposal_foldl_cov ys (MRWProposal.init proposalCov)
    refine ⟨?_, hcov, ?_⟩
    · rw [hfold]
      simp [MRWProposal.generate_proposal, MRWProposal.set_state,
        GaussianLaw.generate_realisation]
    · intro x hx
      rw [List.getLast?_concat] at hx
      injection hx with hx2
      subst hx2
      constructor
      · rw [hfold]
        simp only [MRWProposal.set_state]
        rw [hcov2]
      · rw [hfold]
        simp only [MRWProposal.generate_proposal, MRWProposal.set_state,
          GaussianLaw.generate_realisation]
        rw [hcov2]
        rfl

/-- Witness for C10: a single `set_state((7))` followed by
`generate_proposal` with z = (1) and the identity Cholesky action. -/
theorem mrw_proposal_generate_spec_witness :
    ((([fun _ => 7] : List (Fin 1 → ℝ)).foldl MRWProposal.set_state
        (MRWProposal.init ())).generate_proposal (fun _ z => z)
          (fun _ => 1)
        = Except.error ProposalError.undefinedState
      ↔ ([fun _ => 7] : List (Fin 1 → ℝ)) = [])
    ∧ (([fun _ => 7] : List (Fin 1 → ℝ)).getLast?
        = some (fun _ => 7))
    ∧ (([fun _ => 7] : List (Fin 1 → ℝ)).foldl MRWProposal.set_state
        (MRWProposal.init ())).proposalLaw
        = some ⟨fun _ => 7, ()⟩
    ∧ (([fun _ => 7] : List (Fin 1 → ℝ)).foldl MRWProposal.set_state
        (MRWProposal.init ())).generate_proposal (fun _ z => z)
          (fun _ => 1)
        = Except.ok (fun i => (fun _ : Fin 1 => (7 : ℝ)) i
            + (fun _ : Unit => fun z : Fin 1 → ℝ => z) () (fun _ => 1) i) := by
  have hlast : (([fun _ => 7] : List (Fin 1 → ℝ)).getLast?
      = some (fun _ => 7)) := rfl
  have main := mrw_proposal_generate_spec
    (fun _ : Unit => fun z : Fin 1 → ℝ => z) ()
    ([fun _ => 7] : List (Fin 1 → ℝ)) (fun _ => 1)
  exact ⟨main.1, hlast, (main.2.2 _ hlast).1, (main.2.2 _ hlast).2⟩

end ProposalClaim
